import Mathlib

/-!
Verification of the rebound render/diagnostics pipeline.

Shallow embedding of the C sources `src/output.c`, `src/display.c`,
`problems/wakes/problem.c` and `problems/yacine/problem.c`.
C `double` values are modelled as exact rationals (`ℚ`); where the code
computes square roots or trigonometric functions the model moves to `ℝ`.
File streams returned by `fopen` are modelled as `Option Unit` (`none` is a
`NULL` stream) and the emit routines return `Except Unit`, with
`Except.error` marking a path on which the C code passes the `NULL` stream
to `fprintf`/`fwrite`/`fclose` (undefined behavior).
-/

/-- 3D vector, mirroring `struct vec3` of `src/output.c` (and the
`(x, y, z)` shift triples of `src/display.c`). -/
structure vec3 (α : Type) where
  x : α
  y : α
  z : α
deriving DecidableEq, Repr

/-- `struct particle` (fields used by the embedded routines):
position, velocity, acceleration, mass, radius, charge. -/
structure particle where
  x : ℚ
  y : ℚ
  z : ℚ
  vx : ℚ
  vy : ℚ
  vz : ℚ
  ax : ℚ
  ay : ℚ
  az : ℚ
  m : ℚ
  r : ℚ
  q : ℚ
deriving DecidableEq, Repr

/-- `output_check_phase` from `src/output.c` lines 61-71.  The globals
`t`, `dt`, `tmax` are passed as parameters; the C `floor` on `double` is
the mathematical floor on `ℚ`; the local `shift = t + interval*phase` is
inlined. -/
def output_check_phase (t dt tmax interval phase : ℚ) : ℤ :=
  if ⌊(t + interval * phase) / interval⌋ ≠
      ⌊(t + interval * phase - dt) / interval⌋ then 1
  else if t = 0 ∨ t = tmax then 1
  else 0

/-- A floor inequality over a window of width `dt` detects exactly the
multiples of `interval` lying in the half-open window `(s - dt, s]`. -/
lemma floor_ne_iff_multiple_mem (s dt interval : ℚ)
    (hI : 0 < interval) (hdt : 0 < dt) :
    ⌊s / interval⌋ ≠ ⌊(s - dt) / interval⌋ ↔
      ∃ m : ℤ, s - dt < m * interval ∧ (m : ℚ) * interval ≤ s := by
  have hmono : ⌊(s - dt) / interval⌋ ≤ ⌊s / interval⌋ :=
    Int.floor_le_floor ((div_le_div_iff_of_pos_right hI).mpr (by linarith))
  constructor
  · intro h
    have hlt : ⌊(s - dt) / interval⌋ < ⌊s / interval⌋ :=
      hmono.lt_of_ne (Ne.symm h)
    refine ⟨⌊s / interval⌋, ?_, ?_⟩
    · exact (div_lt_iff₀ hI).mp (Int.floor_lt.mp hlt)
    · exact (le_div_iff₀ hI).mp (Int.floor_le _)
  · rintro ⟨m, h1, h2⟩
    have hub : m ≤ ⌊s / interval⌋ := Int.le_floor.mpr ((le_div_iff₀ hI).mpr h2)
    have hlb : ⌊(s - dt) / interval⌋ < m :=
      Int.floor_lt.mpr ((div_lt_iff₀ hI).mpr h1)
    omega

/-- C1 (amended): with `interval > 0` and `dt > 0`, `output_check_phase`
fires exactly when a multiple of `interval` lies in the phase-shifted
half-open window `(t + interval*phase - dt, t + interval*phase]`, or at
simulation start `t = 0`, or at simulation end `t = tmax`. -/
theorem output_check_phase_window (t dt tmax interval phase : ℚ)
    (hI : 0 < interval) (hdt : 0 < dt) :
    output_check_phase t dt tmax interval phase = 1 ↔
      ((∃ m : ℤ, t + interval * phase - dt < m * interval ∧
          (m : ℚ) * interval ≤ t + interval * phase) ∨ t = 0 ∨ t = tmax) := by
  unfold output_check_phase
  split_ifs with h1 h2
  · exact iff_of_true rfl
      (Or.inl ((floor_ne_iff_multiple_mem _ dt interval hI hdt).mp h1))
  · exact iff_of_true rfl (Or.inr h2)
  · apply iff_of_false (by norm_num)
    rintro (hmul | h0)
    · exact h1 ((floor_ne_iff_multiple_mem _ dt interval hI hdt).mpr hmul)
    · exact h2 h0

/-- Witness for C1's amended theorem at `t = 6/5`, `dt = 3/10`,
`tmax = 10`, `interval = 1`, `phase = 0`. -/
theorem output_check_phase_window_witness :
    (0 : ℚ) < 1 ∧ (0 : ℚ) < 3 / 10 ∧
      (output_check_phase (6 / 5) (3 / 10) 10 1 0 = 1 ↔
        ((∃ m : ℤ, (6 : ℚ) / 5 + 1 * 0 - 3 / 10 < m * 1 ∧
            (m : ℚ) * 1 ≤ 6 / 5 + 1 * 0) ∨ (6 / 5 : ℚ) = 0 ∨ (6 / 5 : ℚ) = 10)) :=
  ⟨by norm_num, by norm_num,
    output_check_phase_window (6 / 5) (3 / 10) 10 1 0 (by norm_num) (by norm_num)⟩

/-- C1 counterexample to the claim as stated: at `t = 3/5`, `dt = 3/10`,
`tmax = 10`, `interval = 1`, `phase = 1/2` the function fires, yet no
multiple of `interval` lies in the unshifted window `(t - dt, t]` and
`t` is neither `0` nor `tmax`. -/
theorem output_check_phase_unshifted_window_cex :
    output_check_phase (3 / 5) (3 / 10) 10 1 (1 / 2) = 1 ∧
      (∀ m : ℤ, ¬((3 : ℚ) / 5 - 3 / 10 < m * 1 ∧ (m : ℚ) * 1 ≤ 3 / 5)) ∧
      (3 / 5 : ℚ) ≠ 0 ∧ (3 / 5 : ℚ) ≠ 10 := by
  refine ⟨?_, ?_, by norm_num, by norm_num⟩
  · unfold output_check_phase
    have hfa : ⌊((3 : ℚ) / 5 + 1 * (1 / 2)) / 1⌋ = 1 := by
      rw [Int.floor_eq_iff]
      push_cast
      norm_num
    have hfb : ⌊((3 : ℚ) / 5 + 1 * (1 / 2) - 3 / 10) / 1⌋ = 0 := by
      rw [Int.floor_eq_iff]
      push_cast
      norm_num
    rw [if_pos]
    rw [hfa, hfb]
    norm_num
  · intro m hm
    obtain ⟨h1, h2⟩ := hm
    rw [mul_one] at h1 h2
    have h3 : (0 : ℚ) < (m : ℚ) := by linarith
    have h4 : (0 : ℤ) < m := by exact_mod_cast h3
    have h5 : (1 : ℚ) ≤ (m : ℚ) := by exact_mod_cast h4
    linarith

/-- One iteration of the accumulator loop of
`output_append_velocity_dispersion` (`src/output.c` lines 211-228),
non-shearing branch (`INTEGRATOR_SEI` not defined): the raw velocity
components are folded with Welford's update.  `i` is the loop index. -/
def dispersion_fold (st : vec3 ℚ × vec3 ℚ) (i : ℕ) (p : particle) :
    vec3 ℚ × vec3 ℚ :=
  let A := st.1
  let Q := st.2
  let Aim1 := A
  let Ax := A.x + (p.vx - A.x) / ((i : ℚ) + 1)
  let Ay := A.y + (p.vy - A.y) / ((i : ℚ) + 1)
  let Az := A.z + (p.vz - A.z) / ((i : ℚ) + 1)
  let Qx := Q.x + (p.vx - Aim1.x) * (p.vx - Ax)
  let Qy := Q.y + (p.vy - Aim1.y) * (p.vy - Ay)
  let Qz := Q.z + (p.vz - Aim1.z) * (p.vz - Az)
  (⟨Ax, Ay, Az⟩, ⟨Qx, Qy, Qz⟩)

/-- The `for (int i=0;i<N;i++)` loop of `output_append_velocity_dispersion`
over the particle array. -/
def dispersion_loop : vec3 ℚ × vec3 ℚ → ℕ → List particle → vec3 ℚ × vec3 ℚ
  | st, _, [] => st
  | st, i, p :: ps => dispersion_loop (dispersion_fold st i p) (i + 1) ps

/-- The accumulator part of `output_append_velocity_dispersion`
(`src/output.c` lines 207-241, non-MPI branch): `A` and `Q` start at zero
and every particle is folded in array order; the result is
`(A_tot, Q_tot)`. -/
def output_append_velocity_dispersion (ps : List particle) :
    vec3 ℚ × vec3 ℚ :=
  dispersion_loop (⟨0, 0, 0⟩, ⟨0, 0, 0⟩) 0 ps

/-- The record written by `output_append_velocity_dispersion`
(`src/output.c` lines 242-246): time, per-axis mean, and per-axis
dispersion `sqrt(Q_tot/N_tot)`. -/
noncomputable def output_dispersion_record (t : ℚ) (ps : List particle) :
    ℚ × vec3 ℚ × vec3 ℝ :=
  let r := output_append_velocity_dispersion ps
  let n : ℚ := (ps.length : ℚ)
  (t, r.1,
    ⟨Real.sqrt ((r.2.x / n : ℚ) : ℝ),
     Real.sqrt ((r.2.y / n : ℚ) : ℝ),
     Real.sqrt ((r.2.z / n : ℚ) : ℝ)⟩)

/-- Scalar Welford update, one axis of `dispersion_fold`. -/
def wstep (A Q : ℚ) (i : ℕ) (v : ℚ) : ℚ × ℚ :=
  let A2 := A + (v - A) / ((i : ℚ) + 1)
  (A2, Q + (v - A) * (v - A2))

/-- Scalar Welford loop, one axis of `dispersion_loop`. -/
def wfold : ℚ × ℚ → ℕ → List ℚ → ℚ × ℚ
  | st, _, [] => st
  | st, i, v :: vs => wfold (wstep st.1 st.2 i v) (i + 1) vs

/-- Arithmetic mean of a finite sample list (`0` for the empty list). -/
def sampleMean (vs : List ℚ) : ℚ := vs.sum / (vs.length : ℚ)

/-- Population variance of a finite sample list (`0` for the empty list). -/
def samplePopVar (vs : List ℚ) : ℚ :=
  (vs.map (fun v => (v - sampleMean vs) ^ 2)).sum / (vs.length : ℚ)

lemma dispersion_loop_x (ps : List particle) :
    ∀ (st : vec3 ℚ × vec3 ℚ) (i : ℕ),
      ((dispersion_loop st i ps).1.x, (dispersion_loop st i ps).2.x) =
        wfold (st.1.x, st.2.x) i (ps.map particle.vx) := by
  induction ps with
  | nil => intro st i; rfl
  | cons p ps ih =>
    intro st i
    simpa [dispersion_loop, wfold, dispersion_fold, wstep] using
      ih (dispersion_fold st i p) (i + 1)

lemma dispersion_loop_y (ps : List particle) :
    ∀ (st : vec3 ℚ × vec3 ℚ) (i : ℕ),
      ((dispersion_loop st i ps).1.y, (dispersion_loop st i ps).2.y) =
        wfold (st.1.y, st.2.y) i (ps.map particle.vy) := by
  induction ps with
  | nil => intro st i; rfl
  | cons p ps ih =>
    intro st i
    simpa [dispersion_loop, wfold, dispersion_fold, wstep] using
      ih (dispersion_fold st i p) (i + 1)

lemma dispersion_loop_z (ps : List particle) :
    ∀ (st : vec3 ℚ × vec3 ℚ) (i : ℕ),
      ((dispersion_loop st i ps).1.z, (dispersion_loop st i ps).2.z) =
        wfold (st.1.z, st.2.z) i (ps.map particle.vz) := by
  induction ps with
  | nil => intro st i; rfl
  | cons p ps ih =>
    intro st i
    simpa [dispersion_loop, wfold, dispersion_fold, wstep] using
      ih (dispersion_fold st i p) (i + 1)

/-- Closed form of the scalar Welford loop: starting from partial sums
`S` over `n` samples (mean `S/n`), folding `vs` yields the overall mean
and `Q` grows by the sum of squares corrected by `S²/n` terms. -/
lemma wfold_closed (vs : List ℚ) :
    ∀ (n : ℕ) (S Q : ℚ), (n = 0 → S = 0) →
      wfold (S / (n : ℚ), Q) n vs =
        ((S + vs.sum) / ((n : ℚ) + (vs.length : ℚ)),
         Q + (vs.map (fun v => v ^ 2)).sum + S ^ 2 / (n : ℚ) -
           (S + vs.sum) ^ 2 / ((n : ℚ) + (vs.length : ℚ))) := by
  induction vs with
  | nil =>
    intro n S Q _
    simp [wfold]
  | cons v vs ih =>
    intro n S Q h
    have hstep : wstep (S / (n : ℚ)) Q n v =
        ((S + v) / ((n : ℚ) + 1),
         Q + v ^ 2 + S ^ 2 / (n : ℚ) - (S + v) ^ 2 / ((n : ℚ) + 1)) := by
      rcases n with _ | k
      · have hS := h rfl
        subst hS
        simp [wstep]
      · have hn : ((k : ℚ) + 1) ≠ 0 := by positivity
        have hn1 : ((k : ℚ) + 1 + 1) ≠ 0 := by positivity
        simp only [wstep, Prod.mk.injEq]
        push_cast
        constructor
        · field_simp
          ring
        · field_simp
          ring
    have hrec : wfold (S / (n : ℚ), Q) n (v :: vs) =
        wfold (wstep (S / (n : ℚ)) Q n v) (n + 1) vs := rfl
    rw [hrec, hstep]
    have ih2 := ih (n + 1) (S + v)
      (Q + v ^ 2 + S ^ 2 / (n : ℚ) - (S + v) ^ 2 / ((n : ℚ) + 1))
      (fun hab => absurd hab (Nat.succ_ne_zero n))
    push_cast at ih2
    rw [ih2]
    have hnum : S + v + vs.sum = S + (v :: vs).sum := by
      simp [List.sum_cons]; ring
    have hden : (n : ℚ) + 1 + (vs.length : ℚ) =
        (n : ℚ) + ((v :: vs).length : ℚ) := by
      simp only [List.length_cons]
      push_cast
      ring
    rw [Prod.mk.injEq]
    constructor
    · rw [hnum, hden]
    · rw [hnum, hden]
      simp only [List.map_cons, List.sum_cons]
      ring

/-- The scalar Welford loop from the zero accumulator. -/
lemma wfold_from_zero (vs : List ℚ) :
    wfold (0, 0) 0 vs =
      (vs.sum / (vs.length : ℚ),
       (vs.map (fun v => v ^ 2)).sum - vs.sum ^ 2 / (vs.length : ℚ)) := by
  have h := wfold_closed vs 0 0 0 (fun _ => rfl)
  simpa using h

/-- Expansion of a sum of squared deviations about an arbitrary center. -/
lemma sum_sq_sub (vs : List ℚ) (c : ℚ) :
    (vs.map (fun v => (v - c) ^ 2)).sum =
      (vs.map (fun v => v ^ 2)).sum - 2 * c * vs.sum + (vs.length : ℚ) * c ^ 2 := by
  induction vs with
  | nil => simp
  | cons v vs ih =>
    simp only [List.map_cons, List.sum_cons, List.length_cons, ih]
    push_cast
    ring

/-- The sum of squared deviations about the mean equals the sum of squares
minus the squared sum over the count. -/
lemma sum_sq_dev (vs : List ℚ) :
    (vs.map (fun v => (v - sampleMean vs) ^ 2)).sum =
      (vs.map (fun v => v ^ 2)).sum - vs.sum ^ 2 / (vs.length : ℚ) := by
  rcases eq_or_ne vs.length 0 with h | h
  · have hnil : vs = [] := List.length_eq_zero.mp h
    subst hnil
    simp
  · have hL : ((vs.length : ℚ)) ≠ 0 := Nat.cast_ne_zero.mpr h
    rw [sum_sq_sub vs (sampleMean vs), sampleMean]
    field_simp
    ring

/-- C2: in the non-shearing configuration, after folding all particles the
accumulator `A` holds the per-axis arithmetic mean of the raw velocity
components, `Q/N` is their population variance, and the emitted per-axis
dispersion is `sqrt(Q/N)` — exactly, over rational arithmetic. -/
theorem output_append_velocity_dispersion_correct (t : ℚ) (ps : List particle) :
    (output_append_velocity_dispersion ps).1 =
      ⟨sampleMean (ps.map particle.vx), sampleMean (ps.map particle.vy),
        sampleMean (ps.map particle.vz)⟩ ∧
    (output_append_velocity_dispersion ps).2.x / (ps.length : ℚ) =
      samplePopVar (ps.map particle.vx) ∧
    (output_append_velocity_dispersion ps).2.y / (ps.length : ℚ) =
      samplePopVar (ps.map particle.vy) ∧
    (output_append_velocity_dispersion ps).2.z / (ps.length : ℚ) =
      samplePopVar (ps.map particle.vz) ∧
    (output_dispersion_record t ps).2.2 =
      ⟨Real.sqrt ((samplePopVar (ps.map particle.vx) : ℚ) : ℝ),
       Real.sqrt ((samplePopVar (ps.map particle.vy) : ℚ) : ℝ),
       Real.sqrt ((samplePopVar (ps.map particle.vz) : ℚ) : ℝ)⟩ := by
  have hx := dispersion_loop_x ps (⟨0, 0, 0⟩, ⟨0, 0, 0⟩) 0
  have hy := dispersion_loop_y ps (⟨0, 0, 0⟩, ⟨0, 0, 0⟩) 0
  have hz := dispersion_loop_z ps (⟨0, 0, 0⟩, ⟨0, 0, 0⟩) 0
  rw [wfold_from_zero] at hx hy hz
  have hAx : (output_append_velocity_dispersion ps).1.x =
      sampleMean (ps.map particle.vx) := by
    have := congrArg Prod.fst hx
    simpa [output_append_velocity_dispersion, sampleMean] using this
  have hAy : (output_append_velocity_dispersion ps).1.y =
      sampleMean (ps.map particle.vy) := by
    have := congrArg Prod.fst hy
    simpa [output_append_velocity_dispersion, sampleMean] using this
  have hAz : (output_append_velocity_dispersion ps).1.z =
      sampleMean (ps.map particle.vz) := by
    have := congrArg Prod.fst hz
    simpa [output_append_velocity_dispersion, sampleMean] using this
  have hQx : (output_append_velocity_dispersion ps).2.x / (ps.length : ℚ) =
      samplePopVar (ps.map particle.vx) := by
    have hq := congrArg Prod.snd hx
    simp only [output_append_velocity_dispersion] at hq ⊢
    rw [hq, samplePopVar, sum_sq_dev]
    simp [List.length_map]
  have hQy : (output_append_velocity_dispersion ps).2.y / (ps.length : ℚ) =
      samplePopVar (ps.map particle.vy) := by
    have hq := congrArg Prod.snd hy
    simp only [output_append_velocity_dispersion] at hq ⊢
    rw [hq, samplePopVar, sum_sq_dev]
    simp [List.length_map]
  have hQz : (output_append_velocity_dispersion ps).2.z / (ps.length : ℚ) =
      samplePopVar (ps.map particle.vz) := by
    have hq := congrArg Prod.snd hz
    simp only [output_append_velocity_dispersion] at hq ⊢
    rw [hq, samplePopVar, sum_sq_dev]
    simp [List.length_map]
  refine ⟨?_, hQx, hQy, hQz, ?_⟩
  · cases hA : (output_append_velocity_dispersion ps).1 with
    | mk ax ay az =>
      rw [hA] at hAx hAy hAz
      simp only at hAx hAy hAz
      rw [hAx, hAy, hAz]
  · simp only [output_dispersion_record]
    rw [hQx.symm, hQy.symm, hQz.symm]

/-- Componentwise vector sum (the effect of `MPI_Reduce(..., MPI_SUM, ...)`
on a `struct vec3`). -/
def vadd (a b : vec3 ℚ) : vec3 ℚ := ⟨a.x + b.x, a.y + b.y, a.z + b.z⟩

/-- The distributed combine of `output_append_velocity_dispersion`
(`src/output.c` lines 229-241, MPI branch): each worker folds its local
particle subset, then `N`, `A` and `Q` are combined by a direct
collective sum — no weighting, no cross term. -/
def mpi_reduce_dispersion (ps1 ps2 : List particle) :
    ℕ × vec3 ℚ × vec3 ℚ :=
  let r1 := output_append_velocity_dispersion ps1
  let r2 := output_append_velocity_dispersion ps2
  (ps1.length + ps2.length, vadd r1.1 r2.1, vadd r1.2 r2.2)

/-- Modelled from the spec: the `merge` operation of §4.2 (the
parallel-variance combination `A = (n1*A1+n2*A2)/n`,
`Q = Q1+Q2+(A1-A2)^2*n1*n2/n`).  No such merge exists in the source;
the source combines with the direct sum `mpi_reduce_dispersion`. -/
def spec_merge (n1 : ℕ) (A1 Q1 : ℚ) (n2 : ℕ) (A2 Q2 : ℚ) : ℚ × ℚ :=
  (((n1 : ℚ) * A1 + (n2 : ℚ) * A2) / ((n1 : ℚ) + (n2 : ℚ)),
   Q1 + Q2 + (A1 - A2) ^ 2 * (n1 : ℚ) * (n2 : ℚ) / ((n1 : ℚ) + (n2 : ℚ)))

/-- A particle at rest at the origin with velocity `(v, 0, 0)`. -/
def particle_with_vx (v : ℚ) : particle :=
  ⟨0, 0, 0, v, 0, 0, 0, 0, 0, 0, 0, 0⟩

/-- C3 (code bug): for the partition `[0] | [1, 1]` of the x-velocity
samples `[0, 1, 1]`, the program's collective sum of partial `(A, Q)`
pairs yields mean `1` and `Q = 0`, while folding the whole sequence into
one accumulator yields mean `2/3` and `Q = 2/3`; the spec's weighted
`merge` reproduces the single-accumulator values. -/
theorem mpi_reduce_dispersion_naive_sum_wrong :
    (mpi_reduce_dispersion [particle_with_vx 0]
        [particle_with_vx 1, particle_with_vx 1]).2.1.x = 1 ∧
    (output_append_velocity_dispersion [particle_with_vx 0,
        particle_with_vx 1, particle_with_vx 1]).1.x = 2 / 3 ∧
    (mpi_reduce_dispersion [particle_with_vx 0]
        [particle_with_vx 1, particle_with_vx 1]).2.1.x ≠
      (output_append_velocity_dispersion [particle_with_vx 0,
          particle_with_vx 1, particle_with_vx 1]).1.x ∧
    (mpi_reduce_dispersion [particle_with_vx 0]
        [particle_with_vx 1, particle_with_vx 1]).2.2.x = 0 ∧
    (output_append_velocity_dispersion [particle_with_vx 0,
        particle_with_vx 1, particle_with_vx 1]).2.x = 2 / 3 ∧
    spec_merge 1 0 0 2 1 0 = (2 / 3, 2 / 3) := by
  refine ⟨?_, ?_, ?_, ?_, ?_, ?_⟩ <;>
    norm_num [mpi_reduce_dispersion, output_append_velocity_dispersion,
      dispersion_loop, dispersion_fold, particle_with_vx, vadd, spec_merge,
      Prod.mk.injEq]

/-- One iteration of the accumulator loop of
`output_append_velocity_dispersion` with `INTEGRATOR_SEI` defined
(`src/output.c` lines 211-228, shearing-sheet branch): the y sample is
`p.vy + 1.5*OMEGA*p.x`. -/
def dispersion_fold_sei (OMEGA : ℚ) (st : vec3 ℚ × vec3 ℚ) (i : ℕ)
    (p : particle) : vec3 ℚ × vec3 ℚ :=
  let A := st.1
  let Q := st.2
  let Aim1 := A
  let Ax := A.x + (p.vx - A.x) / ((i : ℚ) + 1)
  let Ay := A.y + (p.vy + 1.5 * OMEGA * p.x - A.y) / ((i : ℚ) + 1)
  let Az := A.z + (p.vz - A.z) / ((i : ℚ) + 1)
  let Qx := Q.x + (p.vx - Aim1.x) * (p.vx - Ax)
  let Qy := Q.y + (p.vy + 1.5 * OMEGA * p.x - Aim1.y) *
      (p.vy + 1.5 * OMEGA * p.x - Ay)
  let Qz := Q.z + (p.vz - Aim1.z) * (p.vz - Az)
  (⟨Ax, Ay, Az⟩, ⟨Qx, Qy, Qz⟩)

/-- The particle loop of `output_append_velocity_dispersion` in the
shearing-sheet configuration. -/
def dispersion_loop_sei (OMEGA : ℚ) :
    vec3 ℚ × vec3 ℚ → ℕ → List particle → vec3 ℚ × vec3 ℚ
  | st, _, [] => st
  | st, i, p :: ps =>
      dispersion_loop_sei OMEGA (dispersion_fold_sei OMEGA st i p) (i + 1) ps

/-- `output_append_velocity_dispersion` accumulators in the shearing-sheet
configuration (`INTEGRATOR_SEI`), with the external shear rate `OMEGA`. -/
def output_append_velocity_dispersion_sei (OMEGA : ℚ) (ps : List particle) :
    vec3 ℚ × vec3 ℚ :=
  dispersion_loop_sei OMEGA (⟨0, 0, 0⟩, ⟨0, 0, 0⟩) 0 ps

/-- C4 (amended): in the shearing-sheet configuration the y-axis sample
folded for a particle is `vy + 1.5*Ω*x`, i.e. the particle's `vy` with the
background linear shear velocity `-1.5*Ω*x` (the flow that the
shearing-sheet initial conditions assign, `pt.vy = -1.5*pt.x*OMEGA` in
`problems/wakes/problem.c` line 177) subtracted. -/
theorem dispersion_fold_sei_subtracts_background (OMEGA : ℚ)
    (st : vec3 ℚ × vec3 ℚ) (i : ℕ) (p : particle) :
    dispersion_fold_sei OMEGA st i p =
      dispersion_fold st i { p with vy := p.vy - (-(1.5 * OMEGA * p.x)) } := by
  simp only [dispersion_fold_sei, dispersion_fold, Prod.mk.injEq, vec3.mk.injEq]
  refine ⟨⟨?_, ?_, ?_⟩, ?_, ?_, ?_⟩ <;> ring

/-- C4 counterexample to the claim as stated: for `Ω = 1` and a single
particle with `x = 1`, `vy = 0`, the folded y sample (the mean after one
fold) is `3/2 = vy + 1.5*Ω*x`, not `vy - 1.5*Ω*x = -3/2`. -/
theorem dispersion_sei_sample_sign_cex :
    (output_append_velocity_dispersion_sei 1
        [⟨1, 0, 0, 0, 0, 0, 0, 0, 0, 0, 0, 0⟩]).1.y = 3 / 2 ∧
    (3 / 2 : ℚ) ≠ 0 - 1.5 * 1 * 1 := by
  constructor
  · norm_num [output_append_velocity_dispersion_sei, dispersion_loop_sei,
      dispersion_fold_sei]
  · norm_num

/-- Componentwise negation (the undo translation
`glTranslatef(-gb.shiftx, -gb.shifty, -gb.shiftz)`). -/
def vneg (a : vec3 ℚ) : vec3 ℚ := ⟨-a.x, -a.y, -a.z⟩

/-- The loop index range `[-g, g]` of one axis of the ghost-box loops in
`display` (`src/display.c` lines 226-228), in ascending order. -/
def tileRange (g : ℕ) : List ℤ :=
  (List.range (2 * g + 1)).map (fun n => (n : ℤ) - (g : ℤ))

/-- Effective per-axis replication bound: the loop bound in `display` is
`display_ghostboxes * nghost`, so a disabled `display_ghostboxes`
collapses each axis to the single index `0`. -/
def ghostBound (ghostboxes : Bool) (g : ℕ) : ℕ :=
  if ghostboxes then g else 0

/-- The sequence of translations `display` applies at the ghost-tile
level (`src/display.c` lines 226-345): for each `(i,j,k)` in the fixed
loop order, the tile shift from the boundary collaborator
(`boundaries_get_ghostbox`) is applied (line 230) and its exact negation
is applied before advancing (line 342). -/
def display_tile_shifts (ghost : ℤ → ℤ → ℤ → vec3 ℚ) (ghostboxes : Bool)
    (nghostx nghosty nghostz : ℕ) : List (vec3 ℚ) :=
  (tileRange (ghostBound ghostboxes nghostx)).flatMap (fun i =>
    (tileRange (ghostBound ghostboxes nghosty)).flatMap (fun j =>
      (tileRange (ghostBound ghostboxes nghostz)).flatMap (fun k =>
        [ghost i j k, vneg (ghost i j k)])))

/-- Net translation of a sequence of translations, applied in order. -/
def netShift : List (vec3 ℚ) → vec3 ℚ
  | [] => ⟨0, 0, 0⟩
  | v :: l => vadd v (netShift l)

lemma vec3_add_assoc (a b c : vec3 ℚ) : vadd (vadd a b) c = vadd a (vadd b c) := by
  simp only [vadd, vec3.mk.injEq]
  refine ⟨?_, ?_, ?_⟩ <;> ring

lemma vec3_zero_add (a : vec3 ℚ) : vadd ⟨0, 0, 0⟩ a = a := by
  cases a
  simp [vadd]

lemma netShift_append (l1 l2 : List (vec3 ℚ)) :
    netShift (l1 ++ l2) = vadd (netShift l1) (netShift l2) := by
  induction l1 with
  | nil => simp [netShift, vec3_zero_add]
  | cons v l ih => simp [netShift, ih, vec3_add_assoc]

lemma netShift_flatMap_zero {α : Type} (l : List α) (f : α → List (vec3 ℚ))
    (h : ∀ a ∈ l, netShift (f a) = ⟨0, 0, 0⟩) :
    netShift (l.flatMap f) = ⟨0, 0, 0⟩ := by
  induction l with
  | nil => rfl
  | cons a l ih =>
    rw [List.flatMap_cons, netShift_append, h a (by simp),
      ih (fun b hb => h b (by simp [hb])), vec3_zero_add]

/-- C5: for every boundary shift function, every `display_ghostboxes`
toggle and all replication counts, the ghost-tile enumeration of
`display` applies each tile's shift and its exact negation before the
next tile, so the net cumulative translation over the full enumeration
is zero — independent of the number of tiles. -/
theorem display_tile_shifts_net_zero (ghost : ℤ → ℤ → ℤ → vec3 ℚ)
    (ghostboxes : Bool) (nghostx nghosty nghostz : ℕ) :
    netShift (display_tile_shifts ghost ghostboxes nghostx nghosty nghostz) =
      ⟨0, 0, 0⟩ := by
  unfold display_tile_shifts
  refine netShift_flatMap_zero _ _ (fun i _ => ?_)
  refine netShift_flatMap_zero _ _ (fun j _ => ?_)
  refine netShift_flatMap_zero _ _ (fun k _ => ?_)
  simp only [netShift, vadd, vneg]
  norm_num

/-- The inner scan `for (int j=0;j<i;j++)` of `display_init_fancy`
(`src/display.c` lines 540-546) over the previously resolved
(name, handle) pairs in ascending order: on a `strcmp` match the handle
is copied and `done` is set; a later match overwrites (last match wins).
`none` models `done == 0`. -/
def texture_scan {H : Type} (name : String) (prev : List (String × H)) :
    Option H :=
  prev.foldl (fun acc q => if name = q.1 then some q.2 else acc) none

/-- The resolution loop of `display_init_fancy` (`src/display.c` lines
539-551): the name table is processed in index order; a name with no
earlier match triggers `display_load_texture`, modelled by the abstract
handle generator `load` applied to the number of loads performed so far
(`loaded.length`); `loaded` records the names loaded, in order. -/
def texture_resolve_loop {H : Type} (load : ℕ → H) :
    List (String × H) → List String → List String →
      List (String × H) × List String
  | resolved, loaded, [] => (resolved, loaded)
  | resolved, loaded, n :: rest =>
    match texture_scan n resolved with
    | some h => texture_resolve_loop load (resolved ++ [(n, h)]) loaded rest
    | none => texture_resolve_loop load (resolved ++ [(n, load loaded.length)])
        (loaded ++ [n]) rest

/-- Texture-handle resolution of `display_init_fancy` over a name table,
starting from an empty handle table. -/
def display_init_fancy {H : Type} (load : ℕ → H) (names : List String) :
    List (String × H) × List String :=
  texture_resolve_loop load [] [] names

/-- The subsequence of first occurrences of a name list, given the set of
names already seen. -/
def firstOccurrencesFrom (seen : List String) : List String → List String
  | [] => []
  | n :: rest =>
    if n ∈ seen then firstOccurrencesFrom (seen ++ [n]) rest
    else n :: firstOccurrencesFrom (seen ++ [n]) rest

/-- The subsequence of first occurrences of a name list. -/
def firstOccurrences (names : List String) : List String :=
  firstOccurrencesFrom [] names

lemma texture_scan_foldl_eq_none {H : Type} (name : String) :
    ∀ (prev : List (String × H)) (acc : Option H),
      prev.foldl (fun a q => if name = q.1 then some q.2 else a) acc = none ↔
        acc = none ∧ name ∉ prev.map Prod.fst := by
  intro prev
  induction prev with
  | nil => intro acc; simp
  | cons q prev ih =>
    intro acc
    rw [List.foldl_cons, ih]
    by_cases hq : name = q.1
    · simp [hq]
    · simp [hq]

lemma texture_scan_eq_none {H : Type} (name : String)
    (prev : List (String × H)) :
    texture_scan name prev = none ↔ name ∉ prev.map Prod.fst := by
  rw [texture_scan, texture_scan_foldl_eq_none]
  simp

lemma texture_scan_foldl_eq_some {H : Type} (name : String) :
    ∀ (prev : List (String × H)) (acc : Option H) (h : H),
      prev.foldl (fun a q => if name = q.1 then some q.2 else a) acc = some h →
        acc = some h ∨ ∃ q ∈ prev, q.1 = name ∧ q.2 = h := by
  intro prev
  induction prev with
  | nil => intro acc h hacc; exact Or.inl hacc
  | cons q prev ih =>
    intro acc h hacc
    rw [List.foldl_cons] at hacc
    rcases ih _ h hacc with hin | ⟨q2, hq2, hq2n, hq2h⟩
    · by_cases hq : name = q.1
      · rw [if_pos hq] at hin
        exact Or.inr ⟨q, by simp, hq.symm, by injection hin⟩
      · rw [if_neg hq] at hin
        exact Or.inl hin
    · exact Or.inr ⟨q2, by simp [hq2], hq2n, hq2h⟩

lemma texture_scan_eq_some {H : Type} (name : String)
    (prev : List (String × H)) (h : H)
    (hs : texture_scan name prev = some h) :
    ∃ q ∈ prev, q.1 = name ∧ q.2 = h := by
  rcases texture_scan_foldl_eq_some name prev none h hs with habs | hq
  · cases habs
  · exact hq

/-- All pairs of resolved entries with equal names carry equal handles. -/
def handleConsistent {H : Type} (R : List (String × H)) : Prop :=
  ∀ p ∈ R, ∀ q ∈ R, p.1 = q.1 → p.2 = q.2

lemma texture_resolve_loop_spec {H : Type} (load : ℕ → H) :
    ∀ (names : List String) (resolved : List (String × H))
      (loaded : List String), handleConsistent resolved →
      handleConsistent (texture_resolve_loop load resolved loaded names).1 ∧
      (texture_resolve_loop load resolved loaded names).2 =
        loaded ++ firstOccurrencesFrom (resolved.map Prod.fst) names ∧
      (texture_resolve_loop load resolved loaded names).1.map Prod.fst =
        resolved.map Prod.fst ++ names := by
  intro names
  induction names with
  | nil =>
    intro resolved loaded hcons
    exact ⟨hcons, by simp [texture_resolve_loop, firstOccurrencesFrom],
      by simp [texture_resolve_loop]⟩
  | cons n rest ih =>
    intro resolved loaded hcons
    rcases hscan : texture_scan n resolved with _ | h
    · -- no earlier occurrence of `n`: a load happens
      have hmem : n ∉ resolved.map Prod.fst :=
        (texture_scan_eq_none n resolved).mp hscan
      have hcons2 : handleConsistent (resolved ++ [(n, load loaded.length)]) := by
        intro p hp q hq hpq
        rcases List.mem_append.mp hp with hp1 | hp2
        · rcases List.mem_append.mp hq with hq1 | hq2
          · exact hcons p hp1 q hq1 hpq
          · exfalso
            have hq3 : q = (n, load loaded.length) := by simpa using hq2
            apply hmem
            have hpn : p.1 = n := by rw [hpq, hq3]
            exact List.mem_map.mpr ⟨p, hp1, hpn⟩
        · rcases List.mem_append.mp hq with hq1 | hq2
          · exfalso
            have hp3 : p = (n, load loaded.length) := by simpa using hp2
            apply hmem
            have hqn2 : q.1 = n := by rw [← hpq, hp3]
            exact List.mem_map.mpr ⟨q, hq1, hqn2⟩
          · have hp3 : p = (n, load loaded.length) := by simpa using hp2
            have hq3 : q = (n, load loaded.length) := by simpa using hq2
            rw [hp3, hq3]
      have hloop : texture_resolve_loop load resolved loaded (n :: rest) =
          texture_resolve_loop load (resolved ++ [(n, load loaded.length)])
            (loaded ++ [n]) rest := by
        rw [texture_resolve_loop, hscan]
      obtain ⟨ha, hb, hc⟩ :=
        ih (resolved ++ [(n, load loaded.length)]) (loaded ++ [n]) hcons2
      refine ⟨hloop ▸ ha, ?_, ?_⟩
      · rw [hloop, hb]
        have hseen : (resolved ++ [(n, load loaded.length)]).map Prod.fst =
            resolved.map Prod.fst ++ [n] := by simp
        rw [hseen]
        have hfo : firstOccurrencesFrom (resolved.map Prod.fst) (n :: rest) =
            n :: firstOccurrencesFrom (resolved.map Prod.fst ++ [n]) rest := by
          rw [firstOccurrencesFrom, if_neg hmem]
        rw [hfo]
        simp
      · rw [hloop, hc]
        simp
    · -- `n` was already resolved at an earlier index: its handle is reused
      obtain ⟨q, hq, hqn, hqh⟩ := texture_scan_eq_some n resolved h hscan
      have hmem : n ∈ resolved.map Prod.fst :=
        List.mem_map.mpr ⟨q, hq, hqn⟩
      have hcons2 : handleConsistent (resolved ++ [(n, h)]) := by
        intro p hp p2 hp2 hpq
        rcases List.mem_append.mp hp with hpa | hpb
        · rcases List.mem_append.mp hp2 with hpa2 | hpb2
          · exact hcons p hpa p2 hpa2 hpq
          · have hp3 : p2 = (n, h) := by simpa using hpb2
            have hpn : p.1 = q.1 := by rw [hpq, hp3, hqn]
            have hph := hcons p hpa q hq hpn
            rw [hp3]
            exact hph.trans hqh
        · rcases List.mem_append.mp hp2 with hpa2 | hpb2
          · have hp3 : p = (n, h) := by simpa using hpb
            have hpn : q.1 = p2.1 := by rw [hqn, ← hpq, hp3]
            have hph := hcons q hq p2 hpa2 hpn
            rw [hp3]
            rw [← hqh]
            exact hph
          · have hp3 : p = (n, h) := by simpa using hpb
            have hp4 : p2 = (n, h) := by simpa using hpb2
            rw [hp3, hp4]
      have hloop : texture_resolve_loop load resolved loaded (n :: rest) =
          texture_resolve_loop load (resolved ++ [(n, h)]) loaded rest := by
        rw [texture_resolve_loop, hscan]
      obtain ⟨ha, hb, hc⟩ := ih (resolved ++ [(n, h)]) loaded hcons2
      refine ⟨hloop ▸ ha, ?_, ?_⟩
      · rw [hloop, hb]
        have hseen : (resolved ++ [(n, h)]).map Prod.fst =
            resolved.map Prod.fst ++ [n] := by simp
        rw [hseen]
        have hfo : firstOccurrencesFrom (resolved.map Prod.fst) (n :: rest) =
            firstOccurrencesFrom (resolved.map Prod.fst ++ [n]) rest := by
          rw [firstOccurrencesFrom, if_pos hmem]
        rw [hfo]
      · rw [hloop, hc]
        simp

/-- C6: texture resolution over a name table dedupes handles: any two
resolved entries with equal names share one handle, the handle table is
aligned with the name table, loads happen exactly once per distinct name
(at its first occurrence, in order), and on `["a", "b", "a"]` the first
and third handles coincide while exactly two loads occur. -/
theorem display_init_fancy_dedup {H : Type} (load : ℕ → H)
    (names : List String) :
    (∀ p ∈ (display_init_fancy load names).1,
      ∀ q ∈ (display_init_fancy load names).1, p.1 = q.1 → p.2 = q.2) ∧
    (display_init_fancy load names).1.map Prod.fst = names ∧
    (display_init_fancy load names).2 = firstOccurrences names ∧
    display_init_fancy load ["a", "b", "a"] =
      ([("a", load 0), ("b", load 1), ("a", load 0)], ["a", "b"]) := by
  obtain ⟨ha, hb, hc⟩ := texture_resolve_loop_spec load names [] []
    (fun p hp => absurd hp (List.not_mem_nil p))
  refine ⟨ha, by simpa using hc, by simpa [firstOccurrences] using hb, ?_⟩
  simp [display_init_fancy, texture_resolve_loop, texture_scan]

/-- Witness for C6 at `load = id` and `names = ["a", "b", "a"]`: the
entry `("a", 0)` is in the table and the dedup conclusion applies to it. -/
theorem display_init_fancy_dedup_witness :
    ("a", 0) ∈ (display_init_fancy (fun k : ℕ => k) ["a", "b", "a"]).1 ∧
    (0 : ℕ) = 0 := by
  have hm : ("a", 0) ∈ (display_init_fancy (fun k : ℕ => k) ["a", "b", "a"]).1 := by
    simp [display_init_fancy, texture_resolve_loop, texture_scan]
  exact ⟨hm,
    (display_init_fancy_dedup (fun k : ℕ => k) ["a", "b", "a"]).1
      ("a", 0) hm ("a", 0) hm rfl⟩

/-- Rotation about the z axis (the normal axis), as applied by
`glRotatef(angle, 0, 0, 1)` in `display` (`src/display.c` lines 320, 322);
the angle is in radians (the source converts to degrees purely for the
GL call). -/
noncomputable def rotZ (angle : ℝ) (v : vec3 ℝ) : vec3 ℝ :=
  ⟨v.x * Real.cos angle - v.y * Real.sin angle,
   v.x * Real.sin angle + v.y * Real.cos angle,
   v.z⟩

/-- Rotation about the x axis (the line of nodes), as applied by
`glRotatef(angle, 1, 0, 0)` in `display` (`src/display.c` line 321). -/
noncomputable def rotX (angle : ℝ) (v : vec3 ℝ) : vec3 ℝ :=
  ⟨v.x,
   v.y * Real.cos angle - v.z * Real.sin angle,
   v.y * Real.sin angle + v.z * Real.cos angle⟩

/-- The conic radius `a*(1-e²)/(1+e*cos f)` sampled by the orbit-wire
loop (`src/display.c` line 327). -/
noncomputable def orbit_radius (a e f : ℝ) : ℝ :=
  a * (1 - e * e) / (1 + e * Real.cos f)

/-- One vertex of the orbit-wire polyline (`src/display.c` lines 317-331):
the in-plane point `(r cos f, r sin f, 0)` placed in the simulation frame
by the rotation stack `Rz(Ω) ∘ Rx(inc) ∘ Rz(ω)`. -/
noncomputable def orbit_wire_vertex (a e inc Om om f : ℝ) : vec3 ℝ :=
  rotZ Om (rotX inc (rotZ om
    ⟨orbit_radius a e f * Real.cos f, orbit_radius a e f * Real.sin f, 0⟩))

/-- Squared distance from the origin. -/
noncomputable def norm2 (v : vec3 ℝ) : ℝ := v.x ^ 2 + v.y ^ 2 + v.z ^ 2

lemma norm2_rotZ (angle : ℝ) (v : vec3 ℝ) : norm2 (rotZ angle v) = norm2 v := by
  have h := Real.sin_sq_add_cos_sq angle
  simp only [norm2, rotZ]
  linear_combination (v.x ^ 2 + v.y ^ 2) * h

lemma norm2_rotX (angle : ℝ) (v : vec3 ℝ) : norm2 (rotX angle v) = norm2 v := by
  have h := Real.sin_sq_add_cos_sq angle
  simp only [norm2, rotX]
  linear_combination (v.y ^ 2 + v.z ^ 2) * h

/-- C7: for a circular orbit (`e = 0`) with nonnegative semi-major axis,
every vertex of the orbit-wire polyline lies at distance `a` from the
origin — the conic radius degenerates to `a` and the three rotations
preserve distance from the origin. -/
theorem orbit_wire_vertex_circular (a inc Om om f : ℝ) (ha : 0 ≤ a) :
    Real.sqrt (norm2 (orbit_wire_vertex a 0 inc Om om f)) = a := by
  have h2 : norm2 (orbit_wire_vertex a 0 inc Om om f) = a ^ 2 := by
    rw [orbit_wire_vertex, norm2_rotZ, norm2_rotX, norm2_rotZ]
    have h := Real.sin_sq_add_cos_sq f
    simp only [norm2, orbit_radius]
    norm_num
    linear_combination a ^ 2 * h
  rw [h2, Real.sqrt_sq ha]

/-- Witness for C7 at `a = 2` and all angles zero. -/
theorem orbit_wire_vertex_circular_witness :
    (0 : ℝ) ≤ 2 ∧ Real.sqrt (norm2 (orbit_wire_vertex 2 0 0 0 0 0)) = 2 :=
  ⟨by norm_num, orbit_wire_vertex_circular 2 0 0 0 0 (by norm_num)⟩

/-- Draw actions issued during one call of `display`
(`src/display.c` lines 178-352), in order. -/
inductive DrawEvent where
  | clearFrame
  | tileShift (i j k : ℤ)
  | drawPoints
  | drawSpheres
  | drawTextured
  | drawWires
  | tileUnshift (i j k : ℤ)
deriving DecidableEq, Repr

/-- The render-state globals of `src/display.c` lines 52-60 read by
`display`; `display_init_fancy_done` is its value at draw time (after the
one-time init that mode 2 triggers at frame start). -/
structure DisplayState where
  display_pause : Bool
  display_clear : Bool
  display_wire : Bool
  display_mode : ℕ
  display_ghostboxes : Bool
  display_init_fancy_done : ℤ
deriving DecidableEq, Repr

/-- The particle-draw event of the mode switch in the tile body
(`src/display.c` lines 232-295): mode 0 draws the point batches, mode 1
the solid spheres, mode 2 the textured spheres only when
`display_init_fancy_done > 0`; other mode values match no case. -/
def modeDrawEvents (mode : ℕ) (fancy : ℤ) : List DrawEvent :=
  match mode with
  | 0 => [DrawEvent.drawPoints]
  | 1 => [DrawEvent.drawSpheres]
  | 2 => if 0 < fancy then [DrawEvent.drawTextured] else []
  | _ + 3 => []

/-- The `(i,j,k)` triples enumerated by the ghost-box loops of `display`
(`src/display.c` lines 226-228), in loop order. -/
def tileTriples (ghostboxes : Bool) (nghostx nghosty nghostz : ℕ) :
    List (ℤ × ℤ × ℤ) :=
  (tileRange (ghostBound ghostboxes nghostx)).flatMap (fun i =>
    (tileRange (ghostBound ghostboxes nghosty)).flatMap (fun j =>
      (tileRange (ghostBound ghostboxes nghostz)).map (fun k => (i, j, k))))

/-- The events of one ghost-tile body (`src/display.c` lines 229-343):
shift, then — only under `!(!display_clear && display_wire)` — the
mode-dependent particle draw, then the orbit wires if `display_wire`,
then the exact unshift. -/
def tileEvents (st : DisplayState) (ijk : ℤ × ℤ × ℤ) : List DrawEvent :=
  [DrawEvent.tileShift ijk.1 ijk.2.1 ijk.2.2] ++
  (if !(!st.display_clear && st.display_wire) then
      modeDrawEvents st.display_mode st.display_init_fancy_done
    else []) ++
  (if st.display_wire then [DrawEvent.drawWires] else []) ++
  [DrawEvent.tileUnshift ijk.1 ijk.2.1 ijk.2.2]

/-- The ordered draw events of one `display` frame (`src/display.c`
lines 178-352): nothing when render-paused; otherwise an optional frame
clear followed by the ghost-tile enumeration. -/
def display_events (st : DisplayState) (nghostx nghosty nghostz : ℕ) :
    List DrawEvent :=
  if st.display_pause then []
  else
    (if st.display_clear then [DrawEvent.clearFrame] else []) ++
    (tileTriples st.display_ghostboxes nghostx nghosty nghostz).flatMap
      (tileEvents st)

lemma modeDrawEvents_shape (mode : ℕ) (fancy : ℤ) (e : DrawEvent)
    (he : e ∈ modeDrawEvents mode fancy) :
    e = DrawEvent.drawPoints ∨ e = DrawEvent.drawSpheres ∨
      e = DrawEvent.drawTextured := by
  rcases mode with _ | _ | _ | m
  · simp [modeDrawEvents] at he; tauto
  · simp [modeDrawEvents] at he; tauto
  · by_cases hf : (0 : ℤ) < fancy
    · simp [modeDrawEvents, hf] at he; tauto
    · simp [modeDrawEvents, hf] at he
  · simp [modeDrawEvents] at he

lemma modeDrawEvents_count_self (mode : ℕ) (fancy : ℤ) (e : DrawEvent)
    (he : e ∈ modeDrawEvents mode fancy) :
    (modeDrawEvents mode fancy).count e = 1 := by
  rcases mode with _ | _ | _ | m
  · simp [modeDrawEvents] at he ⊢; simp [he]
  · simp [modeDrawEvents] at he ⊢; simp [he]
  · by_cases hf : (0 : ℤ) < fancy
    · simp [modeDrawEvents, hf] at he ⊢; simp [he]
    · simp [modeDrawEvents, hf] at he
  · simp [modeDrawEvents] at he

lemma tileEvents_count (st : DisplayState) (ijk : ℤ × ℤ × ℤ) (e : DrawEvent)
    (he : e ∈ modeDrawEvents st.display_mode st.display_init_fancy_done) :
    (tileEvents st ijk).count e =
      if !st.display_clear && st.display_wire then 0 else 1 := by
  have h1 := modeDrawEvents_count_self _ _ _ he
  rcases modeDrawEvents_shape _ _ _ he with rfl | rfl | rfl <;>
    rcases hc : st.display_clear <;> rcases hw : st.display_wire <;>
      simp [tileEvents, hc, hw, h1, List.count_append, List.count_singleton,
        List.count_cons, List.count_nil]

lemma count_flatMap_const {α β : Type} [DecidableEq β] (l : List α)
    (f : α → List β) (e : β) (c : ℕ) (h : ∀ a ∈ l, (f a).count e = c) :
    (l.flatMap f).count e = l.length * c := by
  induction l with
  | nil => simp
  | cons a l ih =>
    rw [List.flatMap_cons, List.count_append, h a (by simp),
      ih (fun b hb => h b (by simp [hb]))]
    simp [List.length_cons]
    ring

/-- C8 (amended): on a frame that is not render-paused, the mode-dependent
particle draw happens exactly once in every ghost tile — for every
combination of the `display_clear` and `display_wire` toggles except
`display_clear` off with `display_wire` on, where `display` skips the
per-mode particle draw in every tile. -/
theorem display_events_mode_draw (st : DisplayState)
    (nghostx nghosty nghostz : ℕ) (e : DrawEvent)
    (hp : st.display_pause = false)
    (he : e ∈ modeDrawEvents st.display_mode st.display_init_fancy_done) :
    (display_events st nghostx nghosty nghostz).count e =
      if !st.display_clear && st.display_wire then 0
      else (tileTriples st.display_ghostboxes nghostx nghosty nghostz).length := by
  unfold display_events
  rw [if_neg (by simp [hp])]
  rw [List.count_append]
  have hclear :
      (if st.display_clear then [DrawEvent.clearFrame] else []).count e = 0 := by
    rcases modeDrawEvents_shape _ _ _ he with rfl | rfl | rfl <;>
      rcases hc : st.display_clear <;> simp
  rw [hclear]
  rw [count_flatMap_const _ _ _ _ (fun a _ => tileEvents_count st a e he)]
  rcases hc : st.display_clear <;> rcases hw : st.display_wire <;> simp [hc, hw]

/-- C8 counterexample to the claim as stated: with rendering not paused,
`display_clear` off and `display_wire` on (mode 0, no ghost boxes), the
frame contains no point-batch draw at all — the toggle combination
suppresses step (3). -/
theorem display_events_skip_cex :
    (display_events (DisplayState.mk false false true 0 false 0) 0 0 0).count
        DrawEvent.drawPoints = 0 ∧
    (DisplayState.mk false false true 0 false 0).display_pause = false := by
  constructor
  · decide
  · rfl

/-- Witness for C8's amended theorem: mode 0, clearing on, wires off. -/
theorem display_events_mode_draw_witness :
    (DisplayState.mk false true false 0 false 0).display_pause = false ∧
    DrawEvent.drawPoints ∈ modeDrawEvents 0 0 ∧
    (display_events (DisplayState.mk false true false 0 false 0) 0 0 0).count
        DrawEvent.drawPoints =
      (if !(DisplayState.mk false true false 0 false 0).display_clear &&
            (DisplayState.mk false true false 0 false 0).display_wire then 0
       else (tileTriples false 0 0 0).length) :=
  ⟨rfl, by decide,
    display_events_mode_draw (DisplayState.mk false true false 0 false 0)
      0 0 0 DrawEvent.drawPoints rfl (by decide)⟩

/-- `output_append_ascii` (`src/output.c` lines 111-124, non-MPI branch):
`fopen`, one `fprintf` line `(x, y, z, vx, vy, vz)` per particle, `fclose`
— with no `NULL` check, so a failed open reaches `fprintf`/`fclose` with
a `NULL` stream (undefined behavior, modelled as `Except.error`). -/
def output_append_ascii (openResult : Option Unit) (ps : List particle) :
    Except Unit (List (ℚ × ℚ × ℚ × ℚ × ℚ × ℚ)) :=
  match openResult with
  | some _ => Except.ok (ps.map (fun p => (p.x, p.y, p.z, p.vx, p.vy, p.vz)))
  | none => Except.error ()

/-- `output_binary` (`src/output.c` lines 172-187, non-MPI branch):
`fopen`, `fwrite` of `N`, `t` and every particle record, `fclose` — again
with no `NULL` check. -/
def output_binary (openResult : Option Unit) (t : ℚ) (ps : List particle) :
    Except Unit (ℕ × ℚ × List particle) :=
  match openResult with
  | some _ => Except.ok (ps.length, t, ps)
  | none => Except.error ()

/-- The file append of `output_append_velocity_dispersion`
(`src/output.c` lines 245-247): `fopen`, `fprintf` of the dispersion
record, `fclose` — no `NULL` check.  The payload is the accumulator pair
(the printed record applies `sqrt(Q/N)`, irrelevant here). -/
def output_append_velocity_dispersion_emit (openResult : Option Unit)
    (t : ℚ) (ps : List particle) : Except Unit (ℚ × vec3 ℚ × vec3 ℚ) :=
  match openResult with
  | some _ => Except.ok (t, (output_append_velocity_dispersion ps).1,
      (output_append_velocity_dispersion ps).2)
  | none => Except.error ()

/-- `output_ascii_mod` (`problems/wakes/problem.c` lines 203-220, non-MPI
branch): checks `of == NULL`, prints an error and returns — the write is
dropped and the call returns normally (`Except.ok` with no lines). -/
def output_ascii_mod (openResult : Option Unit) (ps : List particle) :
    Except Unit (List (ℚ × ℚ × ℚ × ℚ)) :=
  match openResult with
  | some _ => Except.ok (ps.map (fun p => (p.x, p.y, p.z, p.r)))
  | none => Except.ok []

/-- C9 evidence: when `fopen` fails (`NULL` stream), the emitters in
`src/output.c` reach undefined behavior instead of dropping the write;
only `output_ascii_mod` drops the write and returns normally. -/
theorem output_open_failure_not_dropped (t : ℚ) (ps : List particle) :
    output_append_ascii none ps = Except.error () ∧
    output_binary none t ps = Except.error () ∧
    output_append_velocity_dispersion_emit none t ps = Except.error () ∧
    output_ascii_mod none ps = Except.ok [] :=
  ⟨rfl, rfl, rfl, rfl⟩

/-- Globals of `problems/yacine/problem.c` lines 45-46: the histogram
size and the velocity cap.  `problem_init` (lines 53-54) allocates the
histograms with exactly `velocity_bins_N` entries. -/
def velocity_bins_N : ℤ := 256

/-- `velocity_bins_max` from `problems/yacine/problem.c` line 46. -/
def velocity_bins_max : ℚ := 1

/-- The speed `sqrt(vx*vx + vy*vy + vz*vz)` computed by
`velocity_bins_add` (`problems/yacine/problem.c` line 100). -/
noncomputable def particle_speed (p : particle) : ℝ :=
  Real.sqrt ((p.vx : ℝ) * (p.vx : ℝ) + (p.vy : ℝ) * (p.vy : ℝ) +
    (p.vz : ℝ) * (p.vz : ℝ))

/-- The bin index `(int)ceil(v/velocity_bins_max*velocity_bins_N)`
computed by `velocity_bins_add` (`problems/yacine/problem.c` line 101). -/
noncomputable def velocity_bin (p : particle) : ℤ :=
  ⌈particle_speed p / ((velocity_bins_max : ℚ) : ℝ) * (velocity_bins_N : ℝ)⌉

/-- The skip guard `if (bin<0||bin>velocity_bins_N) continue;` of
`velocity_bins_add` (`problems/yacine/problem.c` line 102). -/
def velocity_bin_skipped (bin : ℤ) : Prop :=
  bin < 0 ∨ bin > velocity_bins_N

instance (bin : ℤ) : Decidable (velocity_bin_skipped bin) := by
  unfold velocity_bin_skipped
  infer_instance

/-- C10 evidence: a particle with speed exactly `velocity_bins_max`
(here `vx = 1`, `vy = vz = 0`) gets bin `256 = velocity_bins_N`; the
guard does not skip it, yet the target index is not strictly less than
`velocity_bins_N` — one past the end of the `velocity_bins_N`-entry
histograms allocated in `problem_init`. -/
theorem velocity_bins_add_out_of_bounds :
    ¬ velocity_bin_skipped
        (velocity_bin ⟨0, 0, 0, 1, 0, 0, 0, 0, 0, 1, 0, 1⟩) ∧
    ¬ (velocity_bin ⟨0, 0, 0, 1, 0, 0, 0, 0, 0, 1, 0, 1⟩ < velocity_bins_N) := by
  have hsp : particle_speed ⟨0, 0, 0, 1, 0, 0, 0, 0, 0, 1, 0, 1⟩ = 1 := by
    simp [particle_speed]
  have hbin : velocity_bin ⟨0, 0, 0, 1, 0, 0, 0, 0, 0, 1, 0, 1⟩ = 256 := by
    rw [velocity_bin, hsp]
    norm_num [velocity_bins_max, velocity_bins_N]
  rw [hbin]
  constructor
  · intro h
    rcases h with h | h
    · exact absurd h (by norm_num)
    · exact absurd h (by norm_num [velocity_bins_N])
  · norm_num [velocity_bins_N]
